import Mathlib

/-!
# echoloop: election, handshake, byte channel and output buffer

A shallow embedding of `src/echoloop/echoloop.c`.

* The System V semaphore set is a record of five counters; `semop` applies a
  list of `sembuf` entries in order, atomically, following semop(2): the first
  entry that cannot proceed decides between `EAGAIN` (entry carries
  `IPC_NOWAIT`) and suspending the caller.
* Every function of the program that submits batches is embedded as the list
  of entries it appends with `sopbuf_add`, in source order.
* Processes are program counters over those batches plus the per-process
  `semadj` table the kernel keeps for `SEM_UNDO`; a system is the counter set
  and a list of processes, driven by scheduling and termination events.
* The output buffer is a heap of `strelem` nodes addressed by pointers;
  `strlist_append`, `strlist_print` and the walk over `next` follow the stores
  and loads of the source.
* The byte channel is the stream of bytes the sender's `write` calls put into
  the FIFO and the receiver's `read` calls take out, with the environment
  choosing how much each call transfers.
-/

namespace Echoloop

/-! ## Counter set -/

/-- The `enum echoloop_semnum` of the source (without the `SEM_MAX` bound). -/
inductive semnum where
  | SEM_SINGLE
  | SEM_MAIN
  | SEM_SENDER
  | SEM_TR_ACTIVE
  | SEM_TR_DONE
  deriving DecidableEq, Repr

/-- The values of `sem_flg` used by the program: `0`, `IPC_NOWAIT`, `SEM_UNDO`. -/
inductive semflg where
  | NONE
  | IPC_NOWAIT
  | SEM_UNDO
  deriving DecidableEq, Repr

/-- One entry of a batch: `struct sembuf`. -/
structure sembuf where
  sem_num : semnum
  sem_op : Int
  sem_flg : semflg
  deriving DecidableEq, Repr

/-- Five values indexed by `semnum`. -/
structure Vec5 (α : Type) where
  single : α
  main : α
  sender : α
  tr_active : α
  tr_done : α
  deriving DecidableEq, Repr

/-- Read the slot of a semaphore. -/
def Vec5.get {α : Type} (v : Vec5 α) : semnum → α
  | .SEM_SINGLE => v.single
  | .SEM_MAIN => v.main
  | .SEM_SENDER => v.sender
  | .SEM_TR_ACTIVE => v.tr_active
  | .SEM_TR_DONE => v.tr_done

/-- Overwrite the slot of a semaphore. -/
def Vec5.set {α : Type} (v : Vec5 α) (n : semnum) (x : α) : Vec5 α :=
  match n with
  | .SEM_SINGLE => { v with single := x }
  | .SEM_MAIN => { v with main := x }
  | .SEM_SENDER => { v with sender := x }
  | .SEM_TR_ACTIVE => { v with tr_active := x }
  | .SEM_TR_DONE => { v with tr_done := x }

/-- Semaphore values (`semval`), non-negative. -/
abbrev Counters := Vec5 Nat

/-- Per-process undo table (`semadj`). -/
abbrev Adj := Vec5 Int

/-- The zero-initialised counter set created by `semget`. -/
def Counters.zero : Counters := ⟨0, 0, 0, 0, 0⟩

/-- The empty undo table of a process that has not used `SEM_UNDO`. -/
def Adj.zero : Adj := ⟨0, 0, 0, 0, 0⟩

/-- Largest semaphore value (`SEMVMX`). -/
def SEMVMX : Nat := 32767

/-- The `errno` values `semop` can report. -/
inductive Errno where
  | EAGAIN
  | ERANGE
  | EINTR
  | EIDRM
  | EINVAL
  | ENOMEM
  | EACCES
  | E2BIG
  | EFBIG
  | EFAULT
  deriving DecidableEq, Repr

/-- Failures of `semop` that do not depend on the counters (removed set,
interrupted call, bad identifier, ...). None of them is `EAGAIN`. -/
inductive Fault where
  | EINTR
  | EIDRM
  | EINVAL
  | ENOMEM
  | EACCES
  | E2BIG
  | EFBIG
  | EFAULT
  deriving DecidableEq, Repr

/-- The `errno` a fault sets. -/
def Fault.errno : Fault → Errno
  | .EINTR => .EINTR
  | .EIDRM => .EIDRM
  | .EINVAL => .EINVAL
  | .ENOMEM => .ENOMEM
  | .EACCES => .EACCES
  | .E2BIG => .E2BIG
  | .EFBIG => .EFBIG
  | .EFAULT => .EFAULT

/-- What a `semop` call does: it returns 0 with the new counters and undo
table, returns -1 with `errno`, or suspends the caller (nothing changes). -/
inductive SemopResult where
  | done (sem : Counters) (adj : Adj)
  | error (e : Errno)
  | sleep
  deriving DecidableEq, Repr

/-- The kernel's evaluation of a batch, entry by entry in array order
(semop(2)): a zero operation needs the value to be zero, a negative one needs
the value to be at least its magnitude, a positive one always proceeds unless
the value would pass `SEMVMX`. The first entry that cannot proceed makes the
whole call fail with `EAGAIN` when it carries `IPC_NOWAIT` and suspends the
caller otherwise; nothing is changed in either case. `SEM_UNDO` entries
subtract their operation from the caller's `semadj`. -/
def semop : List sembuf → Counters → Adj → SemopResult
  | [], sem, adj => .done sem adj
  | sop :: rest, sem, adj =>
    let result : Int := (sem.get sop.sem_num : Int) + sop.sem_op
    if sop.sem_op = 0 ∧ sem.get sop.sem_num ≠ 0 then
      if sop.sem_flg = .IPC_NOWAIT then .error .EAGAIN else .sleep
    else if result < 0 then
      if sop.sem_flg = .IPC_NOWAIT then .error .EAGAIN else .sleep
    else if result > (SEMVMX : Int) then .error .ERANGE
    else
      semop rest (sem.set sop.sem_num result.toNat)
        (if sop.sem_flg = .SEM_UNDO
          then adj.set sop.sem_num (adj.get sop.sem_num - sop.sem_op) else adj)

/-- What the kernel does to the counters when a process terminates
(`exit_sem`): every `semadj` is added to its semaphore, clamped to
`0 .. SEMVMX`. -/
def exit_sem (sem : Counters) (adj : Adj) : Counters :=
  let f : semnum → Nat := fun n => min ((sem.get n : Int) + adj.get n).toNat SEMVMX
  ⟨f .SEM_SINGLE, f .SEM_MAIN, f .SEM_SENDER, f .SEM_TR_ACTIVE, f .SEM_TR_DONE⟩

/-! ## The batch buffer (`sopbuf.h`) -/

/-- Modelled from the spec: `sopbuf.h` is not among the sources. The buffer
holds the ordered entries appended so far ("construction of a batch object
supporting ordered append of (counter, delta, flags) entries prior to
submission"). -/
structure sopbuf where
  buf : List sembuf
  deriving DecidableEq, Repr

/-- Modelled from the spec: the empty buffer made by `sopbuf_new` (header
`sopbuf.h` is missing). -/
def sopbuf_new : sopbuf := ⟨[]⟩

/-- Modelled from the spec: `sopbuf_add` of the missing `sopbuf.h` appends one
(counter, delta, flags) entry after those already in the buffer. -/
def sopbuf_add (num : semnum) (op : Int) (flg : semflg) (sops : sopbuf) : sopbuf :=
  ⟨sops.buf ++ [⟨num, op, flg⟩]⟩

/-- Modelled from the spec: `sopbuf_semop` of the missing `sopbuf.h` submits
the buffered entries as one atomic batch and leaves the buffer empty for the
next batch. An environment fault, when present, is what the call reports. -/
def sopbuf_semop (fault : Option Fault) (sops : sopbuf) (sem : Counters) (adj : Adj) :
    SemopResult × sopbuf :=
  match fault with
  | some f => (.error f.errno, sopbuf_new)
  | none => (semop sops.buf sem adj, sopbuf_new)

/-! ## The batches of the program, in source order -/

/-- Entries appended by `echoloop_start` (election). -/
def echoloop_start_sops (sops : sopbuf) : sopbuf :=
  sops
    |> sopbuf_add .SEM_TR_ACTIVE 0 .NONE
    |> sopbuf_add .SEM_SINGLE 0 .IPC_NOWAIT
    |> sopbuf_add .SEM_SINGLE 1 .SEM_UNDO

/-- Entries appended by `echoloop_main_ready`. -/
def echoloop_main_ready_sops (sops : sopbuf) : sopbuf :=
  sops
    |> sopbuf_add .SEM_TR_ACTIVE 0 .NONE
    |> sopbuf_add .SEM_MAIN 1 .SEM_UNDO

/-- First batch of `echoloop_main_enter_section`. -/
def echoloop_main_enter_section_a (sops : sopbuf) : sopbuf :=
  sops
    |> sopbuf_add .SEM_SENDER (-1) .NONE
    |> sopbuf_add .SEM_SENDER 1 .NONE
    |> sopbuf_add .SEM_TR_ACTIVE 1 .SEM_UNDO

/-- Second batch of `echoloop_main_enter_section`. -/
def echoloop_main_enter_section_b (sops : sopbuf) : sopbuf :=
  sops
    |> sopbuf_add .SEM_SENDER (-1) .IPC_NOWAIT
    |> sopbuf_add .SEM_SENDER 1 .NONE
    |> sopbuf_add .SEM_TR_ACTIVE (-2) .NONE
    |> sopbuf_add .SEM_TR_ACTIVE 2 .NONE

/-- First batch of `echoloop_main_quit_section`. -/
def echoloop_main_quit_section_a (sops : sopbuf) : sopbuf :=
  sops |> sopbuf_add .SEM_TR_DONE 1 .SEM_UNDO

/-- Second batch of `echoloop_main_quit_section`. -/
def echoloop_main_quit_section_b (sops : sopbuf) : sopbuf :=
  sops
    |> sopbuf_add .SEM_TR_ACTIVE (-2) .IPC_NOWAIT
    |> sopbuf_add .SEM_TR_ACTIVE 2 .NONE
    |> sopbuf_add .SEM_TR_DONE (-2) .NONE
    |> sopbuf_add .SEM_TR_DONE 2 .NONE
    |> sopbuf_add .SEM_MAIN (-1) .SEM_UNDO

/-- Third batch of `echoloop_main_quit_section`. -/
def echoloop_main_quit_section_c (sops : sopbuf) : sopbuf :=
  sops
    |> sopbuf_add .SEM_SENDER 0 .NONE
    |> sopbuf_add .SEM_TR_ACTIVE (-1) .SEM_UNDO
    |> sopbuf_add .SEM_TR_DONE (-1) .SEM_UNDO

/-- Entries appended by `echoloop_sender_capture`. -/
def echoloop_sender_capture_sops (sops : sopbuf) : sopbuf :=
  sops
    |> sopbuf_add .SEM_TR_ACTIVE 0 .NONE
    |> sopbuf_add .SEM_SENDER 0 .NONE
    |> sopbuf_add .SEM_SENDER 1 .SEM_UNDO

/-- First batch of `echoloop_sender_enter_section`. -/
def echoloop_sender_enter_section_a (sops : sopbuf) : sopbuf :=
  sops
    |> sopbuf_add .SEM_SINGLE (-1) .IPC_NOWAIT
    |> sopbuf_add .SEM_SINGLE 1 .NONE
    |> sopbuf_add .SEM_MAIN (-1) .NONE
    |> sopbuf_add .SEM_MAIN 1 .NONE
    |> sopbuf_add .SEM_TR_ACTIVE 1 .SEM_UNDO

/-- Second batch of `echoloop_sender_enter_section`. -/
def echoloop_sender_enter_section_b (sops : sopbuf) : sopbuf :=
  sops
    |> sopbuf_add .SEM_MAIN (-1) .IPC_NOWAIT
    |> sopbuf_add .SEM_MAIN 1 .NONE
    |> sopbuf_add .SEM_TR_ACTIVE (-2) .NONE
    |> sopbuf_add .SEM_TR_ACTIVE 2 .NONE

/-- First batch of `echoloop_sender_quit_section`. -/
def echoloop_sender_quit_section_a (sops : sopbuf) : sopbuf :=
  sops |> sopbuf_add .SEM_TR_DONE 1 .SEM_UNDO

/-- Second batch of `echoloop_sender_quit_section`. -/
def echoloop_sender_quit_section_b (sops : sopbuf) : sopbuf :=
  sops
    |> sopbuf_add .SEM_TR_ACTIVE (-2) .IPC_NOWAIT
    |> sopbuf_add .SEM_TR_ACTIVE 2 .NONE
    |> sopbuf_add .SEM_TR_DONE (-2) .NONE
    |> sopbuf_add .SEM_TR_DONE 2 .NONE
    |> sopbuf_add .SEM_SENDER (-1) .SEM_UNDO

/-- Third batch of `echoloop_sender_quit_section`. -/
def echoloop_sender_quit_section_c (sops : sopbuf) : sopbuf :=
  sops
    |> sopbuf_add .SEM_MAIN 0 .NONE
    |> sopbuf_add .SEM_TR_ACTIVE (-1) .SEM_UNDO
    |> sopbuf_add .SEM_TR_DONE (-1) .SEM_UNDO

/-! ## Election (`echoloop_start`) -/

/-- Which way `echoloop_start` goes after its batch. -/
inductive Branch where
  | run_main
  | run_sender
  | ret_fail
  | blocked
  deriving DecidableEq, Repr

/-- The head of `echoloop_start`: the election batch is submitted; on success
`echoloop_main` runs, on `errno == EAGAIN` `echoloop_sender` runs, on any other
failure the function returns -1. The counters and undo table after the batch
are returned with the branch. -/
def echoloop_start (fault : Option Fault) (sops : sopbuf) (sem : Counters) (adj : Adj) :
    Branch × Counters × Adj :=
  match (sopbuf_semop fault (echoloop_start_sops sops) sem adj).1 with
  | .done sem1 adj1 => (.run_main, sem1, adj1)
  | .error e => if e ≠ .EAGAIN then (.ret_fail, sem, adj) else (.run_sender, sem, adj)
  | .sleep => (.blocked, sem, adj)

/-! ## Processes -/

/-- Where a process stands: the batch it submits next. `main_*` positions are
those of `echoloop_main_receive` (called in the endless loop of
`echoloop_main`), `sender_*` those of `echoloop_sender`; the data transfer
happens on arrival at `main_quit_a` / `sender_quit_a`. `exit0` is a sender
that returned 0, `dead` a process that failed or was killed. -/
inductive Pc where
  | start
  | main_ready
  | main_enter_a
  | main_enter_b
  | main_quit_a
  | main_quit_b
  | main_quit_c
  | sender_capture
  | sender_enter_a
  | sender_enter_b
  | sender_quit_a
  | sender_quit_b
  | sender_quit_c
  | exit0
  | dead
  deriving DecidableEq, Repr

/-- The entries a process appends at each position. -/
def Pc.sops : Pc → sopbuf → sopbuf
  | .start => echoloop_start_sops
  | .main_ready => echoloop_main_ready_sops
  | .main_enter_a => echoloop_main_enter_section_a
  | .main_enter_b => echoloop_main_enter_section_b
  | .main_quit_a => echoloop_main_quit_section_a
  | .main_quit_b => echoloop_main_quit_section_b
  | .main_quit_c => echoloop_main_quit_section_c
  | .sender_capture => echoloop_sender_capture_sops
  | .sender_enter_a => echoloop_sender_enter_section_a
  | .sender_enter_b => echoloop_sender_enter_section_b
  | .sender_quit_a => echoloop_sender_quit_section_a
  | .sender_quit_b => echoloop_sender_quit_section_b
  | .sender_quit_c => echoloop_sender_quit_section_c
  | .exit0 => id
  | .dead => id

/-- The position reached when the batch of a position commits. After
`main_quit_c` the loop of `echoloop_main` calls `echoloop_main_receive` again;
after `sender_quit_c` the sender returns 0. -/
def Pc.next : Pc → Pc
  | .start => .main_ready
  | .main_ready => .main_enter_a
  | .main_enter_a => .main_enter_b
  | .main_enter_b => .main_quit_a
  | .main_quit_a => .main_quit_b
  | .main_quit_b => .main_quit_c
  | .main_quit_c => .main_ready
  | .sender_capture => .sender_enter_a
  | .sender_enter_a => .sender_enter_b
  | .sender_enter_b => .sender_quit_a
  | .sender_quit_a => .sender_quit_b
  | .sender_quit_b => .sender_quit_c
  | .sender_quit_c => .exit0
  | .exit0 => .exit0
  | .dead => .dead

/-- What a failing batch prints: the branches that test `errno == EAGAIN`
report the peer as dead or failed, every other failure goes to `perror`. -/
inductive Diag where
  | peer_dead
  | perror
  deriving DecidableEq, Repr

/-- The diagnostic of a failed batch at a position. Only the second Enter
batch, the second Quit batch and the first Enter batch of the sender test
`errno == EAGAIN`. -/
def Pc.diag (pc : Pc) (e : Errno) : Diag :=
  match pc with
  | .main_enter_b | .main_quit_b | .sender_enter_a | .sender_enter_b | .sender_quit_b =>
    if e = .EAGAIN then .peer_dead else .perror
  | _ => .perror

/-- A process: its position and the undo table the kernel keeps for it. -/
structure Proc where
  pc : Pc
  adj : Adj
  deriving DecidableEq, Repr

/-- One scheduling of a process: it submits the batch of its position. A
commit advances it; a suspended call leaves everything as it is (the call is
retried when the process is scheduled again); a failure makes the function
return -1, `main` calls `exit`, and the kernel applies the undo table. At
`start` the dispatch of `echoloop_start` decides. -/
def Proc.run (sem : Counters) (p : Proc) : Counters × Proc :=
  match p.pc with
  | .exit0 => (sem, p)
  | .dead => (sem, p)
  | .start =>
    match echoloop_start none sopbuf_new sem p.adj with
    | (.run_main, sem1, adj1) => (sem1, ⟨.main_ready, adj1⟩)
    | (.run_sender, sem1, adj1) => (sem1, ⟨.sender_capture, adj1⟩)
    | (.ret_fail, sem1, adj1) => (exit_sem sem1 adj1, ⟨.dead, Adj.zero⟩)
    | (.blocked, _, _) => (sem, p)
  | pc =>
    match (sopbuf_semop none (pc.sops sopbuf_new) sem p.adj).1 with
    | .done sem1 adj1 =>
      if pc.next = .exit0 then (exit_sem sem1 adj1, ⟨.exit0, Adj.zero⟩)
      else (sem1, ⟨pc.next, adj1⟩)
    | .error _ => (exit_sem sem p.adj, ⟨.dead, Adj.zero⟩)
    | .sleep => (sem, p)

/-- Termination of a process from outside (signal, failed transfer): the
kernel applies its undo table. -/
def Proc.kill (sem : Counters) (p : Proc) : Counters × Proc :=
  match p.pc with
  | .exit0 => (sem, p)
  | .dead => (sem, p)
  | _ => (exit_sem sem p.adj, ⟨.dead, Adj.zero⟩)

/-- The shared counters and the processes launched so far. -/
structure Sys where
  sem : Counters
  procs : List Proc
  deriving DecidableEq, Repr

/-- An atomic event: process `i` is scheduled, or process `i` is terminated. -/
inductive Ev where
  | run (i : Nat)
  | kill (i : Nat)
  deriving DecidableEq, Repr

/-- Apply a process-local transition to process `i`. -/
def Sys.update (s : Sys) (i : Nat) (f : Counters → Proc → Counters × Proc) : Sys :=
  match s.procs[i]? with
  | none => s
  | some p => ⟨(f s.sem p).1, s.procs.set i (f s.sem p).2⟩

/-- One event. -/
def Sys.step (s : Sys) : Ev → Sys
  | .run i => s.update i Proc.run
  | .kill i => s.update i Proc.kill

/-- A sequence of events, left to right. -/
def Sys.exec (s : Sys) (evs : List Ev) : Sys :=
  evs.foldl Sys.step s

/-- The state after `semget` created the zero-initialised set and `n`
processes were launched, none of which has submitted a batch yet. -/
def Sys.init (n : Nat) : Sys :=
  ⟨Counters.zero, List.replicate n ⟨.start, Adj.zero⟩⟩

/-! ## What a position holds -/

/-- The `SEM_UNDO` registrations a process at a position has pending, read off
the batches committed on the way there: `SEM_SINGLE` from the election until
exit, `SEM_MAIN` from Ready to the second Quit batch, `SEM_SENDER` from Capture
to the second Quit batch, `SEM_TR_ACTIVE` from the first Enter batch and
`SEM_TR_DONE` from the first Quit batch to the third Quit batch. -/
def hold : Pc → Counters
  | .start => ⟨0, 0, 0, 0, 0⟩
  | .main_ready => ⟨1, 0, 0, 0, 0⟩
  | .main_enter_a => ⟨1, 1, 0, 0, 0⟩
  | .main_enter_b => ⟨1, 1, 0, 1, 0⟩
  | .main_quit_a => ⟨1, 1, 0, 1, 0⟩
  | .main_quit_b => ⟨1, 1, 0, 1, 1⟩
  | .main_quit_c => ⟨1, 0, 0, 1, 1⟩
  | .sender_capture => ⟨0, 0, 0, 0, 0⟩
  | .sender_enter_a => ⟨0, 0, 1, 0, 0⟩
  | .sender_enter_b => ⟨0, 0, 1, 1, 0⟩
  | .sender_quit_a => ⟨0, 0, 1, 1, 0⟩
  | .sender_quit_b => ⟨0, 0, 1, 1, 1⟩
  | .sender_quit_c => ⟨0, 0, 0, 1, 1⟩
  | .exit0 => ⟨0, 0, 0, 0, 0⟩
  | .dead => ⟨0, 0, 0, 0, 0⟩

/-- The undo table that goes with `hold`: the kernel records the negated
operation. -/
def adjOf (pc : Pc) : Adj :=
  ⟨-((hold pc).single : Int), -((hold pc).main : Int), -((hold pc).sender : Int),
   -((hold pc).tr_active : Int), -((hold pc).tr_done : Int)⟩

/-- Positions of a sender that has committed Capture and not yet its third
Quit batch. -/
def active : Pc → Nat
  | .sender_enter_a => 1
  | .sender_enter_b => 1
  | .sender_quit_a => 1
  | .sender_quit_b => 1
  | .sender_quit_c => 1
  | _ => 0

/-- Sum of a per-position quantity over all processes. -/
def tot (f : Pc → Nat) (l : List Proc) : Nat := (l.map (fun p => f p.pc)).sum

/-- The invariant of the counter choreography: every undo table is the one of
its position, every counter is the sum of what the processes hold, at most
one process holds `SEM_SINGLE` and at most one sender is captured. -/
structure Inv (s : Sys) : Prop where
  adj_ok : ∀ p ∈ s.procs, p.adj = adjOf p.pc
  single_eq : s.sem.single = tot (fun pc => (hold pc).single) s.procs
  main_eq : s.sem.main = tot (fun pc => (hold pc).main) s.procs
  sender_eq : s.sem.sender = tot (fun pc => (hold pc).sender) s.procs
  active_eq : s.sem.tr_active = tot (fun pc => (hold pc).tr_active) s.procs
  done_eq : s.sem.tr_done = tot (fun pc => (hold pc).tr_done) s.procs
  single_le : s.sem.single ≤ 1
  senders_le : tot active s.procs ≤ 1

/-- The effect of one local transition of a process at position `a`, in terms
of what positions hold. -/
def Local (sem : Counters) (a : Pc) (r : Counters × Proc) : Prop :=
  r.2.adj = adjOf r.2.pc ∧
  r.1.single + (hold a).single = sem.single + (hold r.2.pc).single ∧
  r.1.main + (hold a).main = sem.main + (hold r.2.pc).main ∧
  r.1.sender + (hold a).sender = sem.sender + (hold r.2.pc).sender ∧
  r.1.tr_active + (hold a).tr_active = sem.tr_active + (hold r.2.pc).tr_active ∧
  r.1.tr_done + (hold a).tr_done = sem.tr_done + (hold r.2.pc).tr_done ∧
  ((hold r.2.pc).single ≤ (hold a).single ∨ sem.single = 0) ∧
  (active r.2.pc ≤ active a ∨ (sem.sender = 0 ∧ sem.tr_active = 0))

instance (sem : Counters) (a : Pc) (r : Counters × Proc) : Decidable (Local sem a r) := by
  unfold Local; infer_instance

/-- The counters include what a process at position `a` holds. -/
def Covered (sem : Counters) (a : Pc) : Prop :=
  (hold a).single ≤ sem.single ∧ (hold a).main ≤ sem.main ∧ (hold a).sender ≤ sem.sender ∧
  (hold a).tr_active ≤ sem.tr_active ∧ (hold a).tr_done ≤ sem.tr_done

instance (sem : Counters) (a : Pc) : Decidable (Covered sem a) := by
  unfold Covered; infer_instance

/-- Every position. -/
def allPcs : List Pc := [.start, .main_ready, .main_enter_a, .main_enter_b, .main_quit_a,
  .main_quit_b, .main_quit_c, .sender_capture, .sender_enter_a, .sender_enter_b,
  .sender_quit_a, .sender_quit_b, .sender_quit_c, .exit0, .dead]

/-- The role a position belongs to: `main_*` positions are the Collector's,
`sender_*` positions a Sender's. -/
inductive Role where
  | unelected
  | collector
  | sender
  | gone
  deriving DecidableEq, Repr

/-- The role of a position. -/
def Pc.role : Pc → Role
  | .start => .unelected
  | .main_ready => .collector
  | .main_enter_a => .collector
  | .main_enter_b => .collector
  | .main_quit_a => .collector
  | .main_quit_b => .collector
  | .main_quit_c => .collector
  | .sender_capture => .sender
  | .sender_enter_a => .sender
  | .sender_enter_b => .sender
  | .sender_quit_a => .sender
  | .sender_quit_b => .sender
  | .sender_quit_c => .sender
  | .exit0 => .gone
  | .dead => .gone

/-- Exchange of the two readiness counters `SEM_MAIN` and `SEM_SENDER`. -/
def semnum.mirror : semnum → semnum
  | .SEM_MAIN => .SEM_SENDER
  | .SEM_SENDER => .SEM_MAIN
  | n => n

/-- A batch with the two readiness counters exchanged, entry by entry. -/
def sopbuf.mirror (sops : sopbuf) : sopbuf :=
  ⟨sops.buf.map (fun e => ⟨e.sem_num.mirror, e.sem_op, e.sem_flg⟩)⟩

/-- States in which every process has at most run its election batch. -/
structure Elect (s : Sys) : Prop where
  inv : Inv s
  pcs : ∀ p ∈ s.procs, p.pc = .start ∨ p.pc = .main_ready ∨ p.pc = .sender_capture

/-- Positions of a process that has committed its first Enter batch and not
yet its third Quit batch. -/
def Pc.in_section : Pc → Bool
  | .main_enter_b => true
  | .main_quit_a => true
  | .main_quit_b => true
  | .main_quit_c => true
  | .sender_enter_b => true
  | .sender_quit_a => true
  | .sender_quit_b => true
  | .sender_quit_c => true
  | _ => false

/-! ## One transfer between the Collector and one Sender -/

/-- The batches of one call of `echoloop_main_receive`, in order: Ready, the
two Enter batches, (the read from the channel,) the three Quit batches. -/
def echoloop_main_receive_batches : List Pc :=
  [.main_ready, .main_enter_a, .main_enter_b, .main_quit_a, .main_quit_b, .main_quit_c]

/-- The batches of `echoloop_sender`, in order: Capture, the two Enter batches,
(the write to the channel,) the three Quit batches. -/
def echoloop_sender_batches : List Pc :=
  [.sender_capture, .sender_enter_a, .sender_enter_b, .sender_quit_a, .sender_quit_b,
   .sender_quit_c]

/-- The two parties of one transfer. -/
inductive Side where
  | collector
  | sender
  deriving DecidableEq, Repr

/-- The counters, each party's undo table and the batches each party has
still to commit. -/
structure Transfer where
  sem : Counters
  main_adj : Adj
  sender_adj : Adj
  main_todo : List Pc
  sender_todo : List Pc
  deriving DecidableEq, Repr

/-- The between-transfers baseline: the Collector holds `SEM_SINGLE`, all other
counters are 0, and both parties have all their batches ahead. -/
def Transfer.baseline : Transfer :=
  ⟨⟨1, 0, 0, 0, 0⟩, ⟨-1, 0, 0, 0, 0⟩, Adj.zero, echoloop_main_receive_batches,
    echoloop_sender_batches⟩

/-- One party submits its next batch. A commit removes the batch from its list;
a suspended call changes nothing; a failed call ends the attempt (`none`). A
party with nothing left does nothing. -/
def Transfer.step (t : Transfer) : Side → Option Transfer
  | .collector =>
    match t.main_todo with
    | [] => some t
    | pc :: rest =>
      match (sopbuf_semop none (pc.sops sopbuf_new) t.sem t.main_adj).1 with
      | .done sem1 adj1 => some { t with sem := sem1, main_adj := adj1, main_todo := rest }
      | .sleep => some t
      | .error _ => none
  | .sender =>
    match t.sender_todo with
    | [] => some t
    | pc :: rest =>
      match (sopbuf_semop none (pc.sops sopbuf_new) t.sem t.sender_adj).1 with
      | .done sem1 adj1 => some { t with sem := sem1, sender_adj := adj1, sender_todo := rest }
      | .sleep => some t
      | .error _ => none

/-- An interleaving: the parties are scheduled in the given order. -/
def Transfer.run (t : Transfer) : List Side → Option Transfer
  | [] => some t
  | x :: rest =>
    match t.step x with
    | none => none
    | some t1 => t1.run rest

/-- The state of a transfer in which the Collector has committed `i` and the
Sender `j` of their six batches. -/
def Transfer.after (i j : Nat) : Transfer :=
  let mpc := (echoloop_main_receive_batches ++ [Pc.main_ready]).getD i Pc.main_ready
  let spc := (echoloop_sender_batches ++ [Pc.exit0]).getD j Pc.exit0
  ⟨⟨(hold mpc).single + (hold spc).single, (hold mpc).main + (hold spc).main,
    (hold mpc).sender + (hold spc).sender, (hold mpc).tr_active + (hold spc).tr_active,
    (hold mpc).tr_done + (hold spc).tr_done⟩,
   adjOf mpc, adjOf spc, echoloop_main_receive_batches.drop i, echoloop_sender_batches.drop j⟩

/-! ## The Collector and the captured Sender as a pair -/

/-- Numbering of the Collector's positions (0: not a Collector position). -/
def mcode : Pc → Nat
  | .main_ready => 1
  | .main_enter_a => 2
  | .main_enter_b => 3
  | .main_quit_a => 4
  | .main_quit_b => 5
  | .main_quit_c => 6
  | _ => 0

/-- Numbering of the positions of a captured Sender (0: not captured). -/
def scode : Pc → Nat
  | .sender_enter_a => 1
  | .sender_enter_b => 2
  | .sender_quit_a => 3
  | .sender_quit_b => 4
  | .sender_quit_c => 5
  | _ => 0

/-- Processes that lost the election and hold nothing: senders before Capture
and terminated processes. -/
def lcode : Pc → Nat
  | .sender_capture => 1
  | .exit0 => 1
  | .dead => 1
  | _ => 0

/-- The Collector position with a given number (`start` for 0). -/
def mpos : Nat → Pc
  | 1 => .main_ready
  | 2 => .main_enter_a
  | 3 => .main_enter_b
  | 4 => .main_quit_a
  | 5 => .main_quit_b
  | 6 => .main_quit_c
  | _ => .start

/-- The captured-Sender position with a given number (`start` for 0). -/
def spos : Nat → Pc
  | 1 => .sender_enter_a
  | 2 => .sender_enter_b
  | 3 => .sender_quit_a
  | 4 => .sender_quit_b
  | 5 => .sender_quit_c
  | _ => .start

/-- The counters when the Collector is at position number `mc` and the captured
Sender at position number `sc`. -/
def semOf (mc sc : Nat) : Counters :=
  ⟨(hold (mpos mc)).single + (hold (spos sc)).single,
   (hold (mpos mc)).main + (hold (spos sc)).main,
   (hold (mpos mc)).sender + (hold (spos sc)).sender,
   (hold (mpos mc)).tr_active + (hold (spos sc)).tr_active,
   (hold (mpos mc)).tr_done + (hold (spos sc)).tr_done⟩

/-- The combinations of Collector position and captured-Sender position that
occur when no process is terminated from outside. -/
def okPairs : List (Nat × Nat) :=
  [(0, 0), (1, 0), (2, 0), (6, 0),
   (1, 1), (2, 1), (3, 1),
   (2, 2), (3, 2), (4, 2), (5, 2),
   (3, 3), (4, 3), (5, 3),
   (3, 4), (4, 4), (5, 4), (6, 4),
   (5, 5), (6, 5), (1, 5)]

/-- The invariant of runs without outside termination: on top of `Inv`, the
Collector and the captured Sender are in one of the combinations of `okPairs`,
the counters are those of that combination, and a Collector exists as soon as
some process has lost the election. -/
structure PInv (s : Sys) : Prop where
  inv : Inv s
  sem_eq : s.sem = semOf (tot mcode s.procs) (tot scode s.procs)
  ok : (tot mcode s.procs, tot scode s.procs) ∈ okPairs
  late : 1 ≤ tot lcode s.procs → 1 ≤ tot mcode s.procs

/-- What one scheduling of a process at position `a` does to a combination. -/
def PairStep (mc sc : Nat) (a : Pc) (l : Bool) : Prop :=
  (mc - mcode a + mcode (Proc.run (semOf mc sc) ⟨a, adjOf a⟩).2.pc,
    sc - scode a + scode (Proc.run (semOf mc sc) ⟨a, adjOf a⟩).2.pc) ∈ okPairs ∧
  (Proc.run (semOf mc sc) ⟨a, adjOf a⟩).1
    = semOf (mc - mcode a + mcode (Proc.run (semOf mc sc) ⟨a, adjOf a⟩).2.pc)
        (sc - scode a + scode (Proc.run (semOf mc sc) ⟨a, adjOf a⟩).2.pc) ∧
  ((l = true ∨ 1 ≤ lcode (Proc.run (semOf mc sc) ⟨a, adjOf a⟩).2.pc) →
    1 ≤ mc - mcode a + mcode (Proc.run (semOf mc sc) ⟨a, adjOf a⟩).2.pc)

instance (mc sc : Nat) (a : Pc) (l : Bool) : Decidable (PairStep mc sc a l) := by
  unfold PairStep; infer_instance

/-- The combinations of Collector position and captured-Sender position that
occur in arbitrary runs: those of `okPairs`, and every position of one party
with the other party absent. -/
def okPairsK : List (Nat × Nat) :=
  okPairs ++ [(3, 0), (4, 0), (5, 0), (0, 1), (0, 2), (0, 3), (0, 4), (0, 5)]

/-- What a local transition `f` of a process at position `a` does to a
combination. -/
def PairMove (f : Counters → Proc → Counters × Proc) (mc sc : Nat) (a : Pc) : Prop :=
  (mc - mcode a + mcode (f (semOf mc sc) ⟨a, adjOf a⟩).2.pc,
    sc - scode a + scode (f (semOf mc sc) ⟨a, adjOf a⟩).2.pc) ∈ okPairsK ∧
  (f (semOf mc sc) ⟨a, adjOf a⟩).1
    = semOf (mc - mcode a + mcode (f (semOf mc sc) ⟨a, adjOf a⟩).2.pc)
        (sc - scode a + scode (f (semOf mc sc) ⟨a, adjOf a⟩).2.pc)

instance (f : Counters → Proc → Counters × Proc) (mc sc : Nat) (a : Pc) :
    Decidable (PairMove f mc sc a) := by
  unfold PairMove; infer_instance

/-- The invariant of arbitrary runs in terms of combinations. -/
structure KInv (s : Sys) : Prop where
  inv : Inv s
  sem_eq : s.sem = semOf (tot mcode s.procs) (tot scode s.procs)
  ok : (tot mcode s.procs, tot scode s.procs) ∈ okPairsK

/-! ## Peer-death detection -/

/-- Whether a batch contains an `IPC_NOWAIT` entry (a probe). -/
def sopbuf.has_nowait (sops : sopbuf) : Bool :=
  sops.buf.any (fun e => decide (e.sem_flg = .IPC_NOWAIT))

/-- How the run of a process up to its next probing batch ends: the probing
batch fails (the function returns -1 after the given diagnostic), it commits,
the process is suspended in or before it, the process terminates without
reaching one, or the step budget is used up. -/
inductive Probe where
  | failed (e : Errno) (d : Diag)
  | passed
  | waits
  | finished
  | unfinished
  deriving DecidableEq, Repr

/-- A process runs alone, batch after batch, until it has submitted a batch
that contains an `IPC_NOWAIT` entry, is suspended, or terminates. -/
def Proc.next_probe : Nat → Counters → Proc → Probe × Counters × Proc
  | 0, sem, p => (.unfinished, sem, p)
  | k + 1, sem, p =>
    if p.pc = .exit0 ∨ p.pc = .dead then (.finished, sem, p)
    else
      match (sopbuf_semop none (p.pc.sops sopbuf_new) sem p.adj).1 with
      | .sleep => (.waits, sem, p)
      | .error e =>
        if (p.pc.sops sopbuf_new).has_nowait then (.failed e (p.pc.diag e), Proc.run sem p)
        else (.finished, Proc.run sem p)
      | .done _ _ =>
        if (p.pc.sops sopbuf_new).has_nowait then (.passed, Proc.run sem p)
        else Proc.next_probe k (Proc.run sem p).1 (Proc.run sem p).2

/-- Process `i` of a system runs alone up to its next probing batch. -/
def Sys.next_probe (fuel : Nat) (s : Sys) (i : Nat) : Probe × Sys :=
  match s.procs[i]? with
  | none => (.finished, s)
  | some p =>
    ((Proc.next_probe fuel s.sem p).1,
      ⟨(Proc.next_probe fuel s.sem p).2.1, s.procs.set i (Proc.next_probe fuel s.sem p).2.2⟩)

/-- The other party of the handshake is gone: for a Sender, no live process is
in the Collector role; for the Collector, no live Sender is past Capture. -/
def Sys.peer_gone (s : Sys) (pc : Pc) : Prop :=
  match pc.role with
  | .sender => ∀ q ∈ s.procs, q.pc.role ≠ .collector
  | .collector => ∀ q ∈ s.procs, q.pc.role = .sender → q.pc = .sender_capture
  | _ => False

instance (s : Sys) (pc : Pc) : Decidable (s.peer_gone pc) := by
  unfold Sys.peer_gone; split <;> infer_instance

/-- A node `struct strelem`. `str` stands for the bytes the `char *` points
to, `next` is a pointer (0 is `NULL`). -/
structure strelem where
  str : List Nat
  str_s : Nat
  next : Nat
  deriving DecidableEq, Repr

/-- The list header `struct strlist`: two pointers (0 is `NULL`). -/
structure strlist where
  first : Nat
  last : Nat
  deriving DecidableEq, Repr

/-- The allocated nodes by address; the most recent store to an address comes
first. -/
abbrev Heap := List (Nat × strelem)

/-- Load the node at an address (`none`: nothing is allocated there). -/
def Heap.read (h : Heap) (a : Nat) : Option strelem :=
  match h with
  | [] => none
  | (b, e) :: rest => if b = a then some e else Heap.read rest a

/-- Store a node at an address. -/
def Heap.write (h : Heap) (a : Nat) (e : strelem) : Heap := (a, e) :: h

/-- An address no node lives at, and not `NULL`. -/
def Heap.fresh (h : Heap) : Nat := (h.map (fun c => c.1)).foldl max 0 + 1

/-- The function `strlist_new`: both pointers `NULL`. -/
def strlist_new : strlist := ⟨0, 0⟩

/-- The function `strlist_append`. `cell` is what `malloc` hands out: `none` for
`NULL`, otherwise a fresh block whose bytes are whatever they happen to be
(`malloc` does not clear memory). The stores are those of the source, in
order: `elem->str`, `elem->str_s`, then either `list->first` or
`list->last->next`, then `list->last`. Nothing is stored to `elem->next`. -/
def strlist_append (list : strlist) (h : Heap) (str : List Nat) (str_s : Nat)
    (cell : Option strelem) : Int × strlist × Heap :=
  match cell with
  | none => (-1, list, h)
  | some junk =>
    let elem := h.fresh
    let h1 := h.write elem junk
    let h2 := h1.write elem { junk with str := str }
    let h3 := h2.write elem { str := str, str_s := str_s, next := junk.next }
    if list.first = 0 then (0, ⟨elem, elem⟩, h3)
    else
      match h3.read list.last with
      | none => (0, ⟨list.first, elem⟩, h3)
      | some l => (0, ⟨list.first, elem⟩, h3.write list.last { l with next := elem })

/-- The walk `for (ptr = list->first; ptr != NULL; ptr = ptr->next)` used by
`strlist_print` and `strlist_delete`, collecting `(str, str_s)` of the nodes
met. `none`: the walk reads an address where no node lives, or does not reach
`NULL` within the budget. -/
def strlist_walk : Nat → Heap → Nat → Option (List (List Nat × Nat))
  | 0, _, ptr => if ptr = 0 then some [] else none
  | k + 1, h, ptr =>
    if ptr = 0 then some []
    else
      match h.read ptr with
      | none => none
      | some e =>
        match strlist_walk k h e.next with
        | none => none
        | some rest => some ((e.str, e.str_s) :: rest)

/-! ## Byte streams -/

/-- The call `write(fd, buf, n)` on a blocking descriptor, `n ≥ 1`. The
environment value `v` says how many bytes can be taken now: a negative value
is a failed call (`none`), otherwise between 1 and `n` bytes of `buf` are
taken. Returns the count and the bytes that went out. -/
def sys_write (v : Int) (buf : List Nat) (n : Nat) : Option (Nat × List Nat) :=
  if v < 0 then none
  else some (min (max v.toNat 1) n, (buf.take n).take (min (max v.toNat 1) n))

/-- The loop `while (str_s) { ret = write(fd, str, str_s); ...; str_s -= ret; }`
of `strlist_print`. `str` is not advanced. Returns `false` on a failed write,
the index of the next environment value and the output so far. -/
def strlist_print_str (w : Nat → Int) (str : List Nat) :
    Nat → Nat → Nat → List Nat → Option (Bool × Nat × List Nat)
  | 0, k, str_s, out => if str_s = 0 then some (true, k, out) else none
  | fuel + 1, k, str_s, out =>
    if str_s = 0 then some (true, k, out)
    else
      match sys_write (w k) str str_s with
      | none => some (false, k + 1, out)
      | some (ret, bytes) => strlist_print_str w str fuel (k + 1) (str_s - ret) (out ++ bytes)

/-- The function `strlist_print` from node `ptr` on: every node's string is
written with the inner loop, then a newline is written with a single `write`
whose result is ignored. Returns the return value (0 or -1) and the output;
`none` when the walk leaves the allocated nodes or the budget. -/
def strlist_print_from (w : Nat → Int) (h : Heap) :
    Nat → Nat → Nat → List Nat → Option (Int × List Nat)
  | 0, ptr, _, out => if ptr = 0 then some (0, out) else none
  | fuel + 1, ptr, k, out =>
    if ptr = 0 then some (0, out)
    else
      match h.read ptr with
      | none => none
      | some e =>
        match strlist_print_str w e.str e.str_s k e.str_s out with
        | none => none
        | some (false, _, out1) => some (-1, out1)
        | some (true, k1, out1) =>
          match sys_write (w k1) [10] 1 with
          | none => strlist_print_from w h fuel e.next (k1 + 1) out1
          | some (_, bytes) => strlist_print_from w h fuel e.next (k1 + 1) (out1 ++ bytes)

/-- The function `strlist_print`. -/
def strlist_print (w : Nat → Int) (fuel : Nat) (list : strlist) (h : Heap) :
    Option (Int × List Nat) :=
  strlist_print_from w h fuel list.first 0 []

theorem mem_allPcs (a : Pc) : a ∈ allPcs := by cases a <;> simp [allPcs]

theorem tot_set (f : Pc → Nat) (l : List Proc) (i : Nat) (p q : Proc) (h : l[i]? = some p) :
    tot f (l.set i q) + f p.pc = tot f l + f q.pc := by
  induction l generalizing i with
  | nil => simp at h
  | cons a t ih =>
    cases i with
    | zero =>
      simp at h
      subst h
      simp only [tot, List.set_cons_zero, List.map_cons, List.sum_cons]
      omega
    | succ j =>
      simp at h
      have := ih j h
      simp only [tot, List.set_cons_succ, List.map_cons, List.sum_cons] at this ⊢
      omega

theorem tot_le_add (f g h : Pc → Nat) (hp : ∀ pc, f pc ≤ g pc + h pc) (l : List Proc) :
    tot f l ≤ tot g l + tot h l := by
  induction l with
  | nil => simp [tot]
  | cons a t ih =>
    have := hp a.pc
    simp only [tot, List.map_cons, List.sum_cons] at ih ⊢
    omega

theorem tot_ge (f : Pc → Nat) (l : List Proc) (i : Nat) (p : Proc) (h : l[i]? = some p) :
    f p.pc ≤ tot f l := by
  induction l generalizing i with
  | nil => simp at h
  | cons a t ih =>
    cases i with
    | zero =>
      simp at h
      subst h
      simp only [tot, List.map_cons, List.sum_cons]
      omega
    | succ j =>
      simp at h
      have := ih j h
      simp only [tot, List.map_cons, List.sum_cons] at this ⊢
      omega

theorem tot_zero (l : List Proc) : tot (fun _ => 0) l = 0 := by
  simp [tot]

theorem Inv.bounds {s : Sys} (h : Inv s) :
    s.sem.main ≤ 1 ∧ s.sem.sender ≤ 1 ∧ s.sem.tr_active ≤ 2 ∧ s.sem.tr_done ≤ 2 := by
  have h1 := tot_le_add (fun pc => (hold pc).main) (fun pc => (hold pc).single) (fun _ => 0)
    (by intro pc; cases pc <;> simp [hold]) s.procs
  have h2 := tot_le_add (fun pc => (hold pc).sender) active (fun _ => 0)
    (by intro pc; cases pc <;> simp [hold, active]) s.procs
  have h3 := tot_le_add (fun pc => (hold pc).tr_active) (fun pc => (hold pc).single) active
    (by intro pc; cases pc <;> simp [hold, active]) s.procs
  have h4 := tot_le_add (fun pc => (hold pc).tr_done) (fun pc => (hold pc).single) active
    (by intro pc; cases pc <;> simp [hold, active]) s.procs
  have h0 := tot_zero s.procs
  have := h.single_eq
  have := h.main_eq
  have := h.sender_eq
  have := h.active_eq
  have := h.done_eq
  have := h.single_le
  have := h.senders_le
  omega

set_option maxRecDepth 100000 in
theorem run_local_fin : ∀ a ∈ allPcs, ∀ s : Fin 2, ∀ m : Fin 2, ∀ d : Fin 2, ∀ t : Fin 3,
    ∀ u : Fin 3, Covered ⟨s, m, d, t, u⟩ a →
      Local ⟨s, m, d, t, u⟩ a (Proc.run ⟨s, m, d, t, u⟩ ⟨a, adjOf a⟩) := by
  decide

set_option maxRecDepth 100000 in
theorem kill_local_fin : ∀ a ∈ allPcs, ∀ s : Fin 2, ∀ m : Fin 2, ∀ d : Fin 2, ∀ t : Fin 3,
    ∀ u : Fin 3, Covered ⟨s, m, d, t, u⟩ a →
      Local ⟨s, m, d, t, u⟩ a (Proc.kill ⟨s, m, d, t, u⟩ ⟨a, adjOf a⟩) := by
  decide

theorem run_local (sem : Counters) (a : Pc)
    (b1 : sem.single ≤ 1) (b2 : sem.main ≤ 1) (b3 : sem.sender ≤ 1) (b4 : sem.tr_active ≤ 2)
    (b5 : sem.tr_done ≤ 2) (g : Covered sem a) :
    Local sem a (Proc.run sem ⟨a, adjOf a⟩) :=
  run_local_fin a (mem_allPcs a) ⟨sem.single, by omega⟩ ⟨sem.main, by omega⟩
    ⟨sem.sender, by omega⟩ ⟨sem.tr_active, by omega⟩ ⟨sem.tr_done, by omega⟩ g

theorem kill_local (sem : Counters) (a : Pc)
    (b1 : sem.single ≤ 1) (b2 : sem.main ≤ 1) (b3 : sem.sender ≤ 1) (b4 : sem.tr_active ≤ 2)
    (b5 : sem.tr_done ≤ 2) (g : Covered sem a) :
    Local sem a (Proc.kill sem ⟨a, adjOf a⟩) :=
  kill_local_fin a (mem_allPcs a) ⟨sem.single, by omega⟩ ⟨sem.main, by omega⟩
    ⟨sem.sender, by omega⟩ ⟨sem.tr_active, by omega⟩ ⟨sem.tr_done, by omega⟩ g

theorem Inv.covered {s : Sys} (h : Inv s) {i : Nat} {p : Proc} (hp : s.procs[i]? = some p) :
    Covered s.sem p.pc := by
  have h1 := tot_ge (fun pc => (hold pc).single) s.procs i p hp
  have h2 := tot_ge (fun pc => (hold pc).main) s.procs i p hp
  have h3 := tot_ge (fun pc => (hold pc).sender) s.procs i p hp
  have h4 := tot_ge (fun pc => (hold pc).tr_active) s.procs i p hp
  have h5 := tot_ge (fun pc => (hold pc).tr_done) s.procs i p hp
  have := h.single_eq
  have := h.main_eq
  have := h.sender_eq
  have := h.active_eq
  have := h.done_eq
  unfold Covered
  simp only at h1 h2 h3 h4 h5
  omega

/-- A local transition that respects `Local` keeps the invariant. -/
theorem Inv.update {s : Sys} (h : Inv s) (i : Nat) (f : Counters → Proc → Counters × Proc)
    (hf : ∀ a, Covered s.sem a → Local s.sem a (f s.sem ⟨a, adjOf a⟩)) :
    Inv (s.update i f) := by
  unfold Sys.update
  cases hp : s.procs[i]? with
  | none => exact h
  | some p =>
    have hadj : p.adj = adjOf p.pc := h.adj_ok p (List.getElem?_mem hp)
    have hpe : p = ⟨p.pc, adjOf p.pc⟩ := by
      cases p with
      | mk pc adj => simp at hadj; simp [hadj]
    have hc := h.covered hp
    have hl := hf p.pc hc
    rw [← hpe] at hl
    obtain ⟨l0, l1, l2, l3, l4, l5, l6, l7⟩ := hl
    have t1 := tot_set (fun pc => (hold pc).single) s.procs i p (f s.sem p).2 hp
    have t2 := tot_set (fun pc => (hold pc).main) s.procs i p (f s.sem p).2 hp
    have t3 := tot_set (fun pc => (hold pc).sender) s.procs i p (f s.sem p).2 hp
    have t4 := tot_set (fun pc => (hold pc).tr_active) s.procs i p (f s.sem p).2 hp
    have t5 := tot_set (fun pc => (hold pc).tr_done) s.procs i p (f s.sem p).2 hp
    have t6 := tot_set active s.procs i p (f s.sem p).2 hp
    have a1 := tot_le_add active (fun pc => (hold pc).sender) (fun pc => (hold pc).tr_active)
      (by intro pc; cases pc <;> simp [hold, active]) s.procs
    have a2 : ∀ pc, active pc ≤ 1 := by intro pc; cases pc <;> simp [active]
    have a3 := a2 (f s.sem p).2.pc
    have e1 := h.single_eq
    have e2 := h.main_eq
    have e3 := h.sender_eq
    have e4 := h.active_eq
    have e5 := h.done_eq
    have e6 := h.single_le
    have e7 := h.senders_le
    have hs1 : ∀ pc, (hold pc).single ≤ 1 := by intro pc; cases pc <;> simp [hold]
    have hs2 := hs1 (f s.sem p).2.pc
    obtain ⟨c1, c2, c3, c4, c5⟩ := hc
    simp only at t1 t2 t3 t4 t5
    refine ⟨?_, ?_, ?_, ?_, ?_, ?_, ?_, ?_⟩
    · intro q hq
      rcases List.mem_or_eq_of_mem_set hq with h1 | h1
      · exact h.adj_ok q h1
      · rw [h1]; exact l0
    all_goals simp only
    all_goals omega

theorem Inv.step_preserves {s : Sys} (h : Inv s) (e : Ev) : Inv (s.step e) := by
  obtain ⟨b2, b3, b4, b5⟩ := h.bounds
  cases e with
  | run i => exact h.update i Proc.run (fun a g => run_local s.sem a h.single_le b2 b3 b4 b5 g)
  | kill i => exact h.update i Proc.kill (fun a g => kill_local s.sem a h.single_le b2 b3 b4 b5 g)

theorem Inv.exec_preserves {s : Sys} (h : Inv s) (evs : List Ev) : Inv (s.exec evs) := by
  induction evs generalizing s with
  | nil => exact h
  | cons e t ih => exact ih (h.step_preserves e)

theorem tot_replicate_start (f : Pc → Nat) (n : Nat) (adj : Adj) (h : f .start = 0) :
    tot f (List.replicate n ⟨.start, adj⟩) = 0 := by
  induction n with
  | zero => simp [tot]
  | succ k ih => simp only [tot, List.replicate_succ, List.map_cons, List.sum_cons] at ih ⊢; omega

theorem Inv.init_holds (n : Nat) : Inv (Sys.init n) := by
  refine ⟨?_, ?_, ?_, ?_, ?_, ?_, ?_, ?_⟩
  · intro p hp
    have := List.eq_of_mem_replicate hp
    subst this
    rfl
  all_goals simp only [Sys.init, Counters.zero]
  all_goals (try rw [tot_replicate_start _ _ _ rfl])
  all_goals omega

/-- Every reachable state satisfies the invariant. -/
theorem Inv.reach (n : Nat) (evs : List Ev) : Inv ((Sys.init n).exec evs) :=
  (Inv.init_holds n).exec_preserves evs

/-! # Election -/

theorem tot_congr (f g : Pc → Nat) (l : List Proc) (h : ∀ p ∈ l, f p.pc = g p.pc) :
    tot f l = tot g l := by
  induction l with
  | nil => rfl
  | cons a t ih =>
    have h1 := h a (List.mem_cons_self a t)
    have h2 := ih (fun p hp => h p (List.mem_cons_of_mem a hp))
    simp only [tot, List.map_cons, List.sum_cons] at h2 ⊢
    omega

theorem countP_eq_tot (P : Pc → Prop) [DecidablePred P] (l : List Proc) :
    l.countP (fun p => decide (P p.pc)) = tot (fun pc => if P pc then 1 else 0) l := by
  induction l with
  | nil => rfl
  | cons a t ih =>
    simp only [tot, List.map_cons, List.sum_cons, List.countP_cons, decide_eq_true_eq] at ih ⊢
    omega

theorem tot_length (f g h : Pc → Nat) (l : List Proc)
    (hp : ∀ p ∈ l, f p.pc + g p.pc + h p.pc = 1) :
    tot f l + tot g l + tot h l = l.length := by
  induction l with
  | nil => rfl
  | cons a t ih =>
    have h1 := hp a (List.mem_cons_self a t)
    have h2 := ih (fun p hp1 => hp p (List.mem_cons_of_mem a hp1))
    simp only [tot, List.map_cons, List.sum_cons, List.length_cons] at h2 ⊢
    omega

/-- In every state satisfying the invariant the number of processes in the
Collector role is the value of `SEM_SINGLE`. -/
theorem Inv.collectors {s : Sys} (h : Inv s) :
    s.procs.countP (fun p => decide (p.pc.role = .collector)) = s.sem.single := by
  rw [countP_eq_tot (fun pc => pc.role = .collector), h.single_eq]
  apply tot_congr
  intro p _
  cases p.pc <;> simp [Pc.role, hold]

theorem Elect.sem_eq {s : Sys} (h : Elect s) : s.sem = ⟨s.sem.single, 0, 0, 0, 0⟩ := by
  have z : ∀ f : Pc → Nat, f .start = 0 → f .main_ready = 0 → f .sender_capture = 0 →
      tot f s.procs = 0 := by
    intro f f1 f2 f3
    rw [tot_congr f (fun _ => 0) s.procs, tot_zero]
    intro p hp
    rcases h.pcs p hp with e | e | e <;> rw [e] <;> assumption
  have e2 := h.inv.main_eq
  have e3 := h.inv.sender_eq
  have e4 := h.inv.active_eq
  have e5 := h.inv.done_eq
  rw [z _ rfl rfl rfl] at e2 e3 e4 e5
  cases hs : s.sem with
  | mk a b c d e => rw [hs] at e2 e3 e4 e5; simp at e2 e3 e4 e5; simp [e2, e3, e4, e5]

theorem run_start_free :
    Proc.run ⟨0, 0, 0, 0, 0⟩ ⟨.start, adjOf .start⟩
      = (⟨1, 0, 0, 0, 0⟩, ⟨.main_ready, adjOf .main_ready⟩) := by
  decide

theorem run_start_taken :
    Proc.run ⟨1, 0, 0, 0, 0⟩ ⟨.start, adjOf .start⟩
      = (⟨1, 0, 0, 0, 0⟩, ⟨.sender_capture, adjOf .sender_capture⟩) := by
  decide

theorem Sys.update_some (s : Sys) (i : Nat) (f : Counters → Proc → Counters × Proc) (p : Proc)
    (hp : s.procs[i]? = some p) :
    s.update i f = ⟨(f s.sem p).1, s.procs.set i (f s.sem p).2⟩ := by
  simp [Sys.update, hp]

theorem Proc.eq_of_adj {p : Proc} (h : p.adj = adjOf p.pc) : p = ⟨p.pc, adjOf p.pc⟩ := by
  cases p with
  | mk pc adj => simp at h; simp [h]

/-- One election: the process at `start` becomes the Collector when
`SEM_SINGLE` is 0 and a Sender otherwise; `SEM_SINGLE` is 1 afterwards. -/
theorem Elect.one_election {s : Sys} (h : Elect s) (i : Nat) (p : Proc)
    (hp : s.procs[i]? = some p) (hpc : p.pc = .start) :
    ∃ q, (q.pc = .main_ready ∨ q.pc = .sender_capture) ∧
      s.step (.run i) = ⟨⟨1, 0, 0, 0, 0⟩, s.procs.set i q⟩ := by
  have hadj := h.inv.adj_ok p (List.getElem?_mem hp)
  have hpe := Proc.eq_of_adj hadj
  rw [hpc] at hpe
  have hs := h.sem_eq
  have hle := h.inv.single_le
  simp only [Sys.step]
  rw [Sys.update_some s i _ p hp, hpe, hs]
  rcases Nat.lt_or_ge s.sem.single 1 with h0 | h1
  · have e : s.sem.single = 0 := by omega
    rw [e, run_start_free]
    exact ⟨_, Or.inl rfl, rfl⟩
  · have e : s.sem.single = 1 := by omega
    rw [e, run_start_taken]
    exact ⟨_, Or.inr rfl, rfl⟩

theorem Elect.run_all (order : List Nat) : ∀ s : Sys, Elect s → order.Nodup →
    (∀ i ∈ order, ∃ p, s.procs[i]? = some p ∧ p.pc = .start) →
    Elect (s.exec (order.map Ev.run)) ∧
    (s.exec (order.map Ev.run)).procs.length = s.procs.length ∧
    tot (fun pc => if pc = .start then 1 else 0) (s.exec (order.map Ev.run)).procs + order.length
      = tot (fun pc => if pc = .start then 1 else 0) s.procs ∧
    (order ≠ [] → (s.exec (order.map Ev.run)).sem.single = 1) := by
  induction order with
  | nil =>
    intro s h _ _
    exact ⟨h, rfl, rfl, fun h => absurd rfl h⟩
  | cons i rest ih =>
    intro s h hnd hst
    obtain ⟨p, hp, hpc⟩ := hst i (List.mem_cons_self i rest)
    obtain ⟨q, hq, hstep⟩ := h.one_election i p hp hpc
    have hE : Elect (s.step (.run i)) := by
      refine ⟨h.inv.step_preserves _, ?_⟩
      rw [hstep]
      intro r hr
      rcases List.mem_or_eq_of_mem_set hr with h1 | h1
      · exact h.pcs r h1
      · rw [h1]; exact Or.inr hq
    have hnd2 := List.nodup_cons.mp hnd
    have hst2 : ∀ j ∈ rest, ∃ r, (s.step (.run i)).procs[j]? = some r ∧ r.pc = .start := by
      intro j hj
      have hne : i ≠ j := by
        intro e; rw [e] at hnd2; exact hnd2.1 hj
      rw [hstep]
      simp only [List.getElem?_set_ne hne]
      exact hst j (List.mem_cons_of_mem i hj)
    obtain ⟨r1, r2, r3, r4⟩ := ih (s.step (.run i)) hE hnd2.2 hst2
    have hex : s.exec ((i :: rest).map Ev.run) = (s.step (.run i)).exec (rest.map Ev.run) := rfl
    rw [hex]
    have hcnt := tot_set (fun pc => if pc = .start then 1 else 0) s.procs i p q hp
    have hq0 : (if q.pc = Pc.start then 1 else 0) = 0 := by
      rcases hq with e | e <;> rw [e] <;> rfl
    have hp1 : (if p.pc = Pc.start then 1 else 0) = 1 := by rw [hpc]; rfl
    simp only [hq0, hp1] at hcnt
    have hlen : (s.step (.run i)).procs.length = s.procs.length := by
      rw [hstep]; simp
    have hprocs : (s.step (.run i)).procs = s.procs.set i q := by rw [hstep]
    rw [hprocs] at r3
    refine ⟨r1, by omega, by simp only [List.length_cons]; omega, ?_⟩
    intro _
    cases rest with
    | nil => rw [hstep]; rfl
    | cons j t => exact r4 (List.cons_ne_nil j t)

theorem Elect.init_elect (n : Nat) : Elect (Sys.init n) :=
  ⟨Inv.init_holds n, fun p hp => Or.inl (by rw [List.eq_of_mem_replicate hp])⟩

theorem tot_start_init (n : Nat) :
    tot (fun pc => if pc = .start then 1 else 0) (Sys.init n).procs = n := by
  simp [Sys.init, tot]

/-- C1. From the zero-initialised counter set, whatever the order in which
`N ≥ 1` processes run the election batch of `echoloop_start` (each once,
atomically, nobody terminating), exactly one process ends in the Collector
role and the other `N - 1` in the Sender role; and after any number of those
elections `SEM_SINGLE` is at most 1 and at most one process is Collector. -/
theorem election_exactly_one_collector (N : Nat) (hN : 1 ≤ N) (order : List Nat)
    (hperm : order.Perm (List.range N)) :
    ((Sys.init N).exec (order.map Ev.run)).procs.countP
        (fun p => decide (p.pc.role = .collector)) = 1 ∧
    ((Sys.init N).exec (order.map Ev.run)).procs.countP
        (fun p => decide (p.pc.role = .sender)) = N - 1 ∧
    ∀ k, ((Sys.init N).exec ((order.take k).map Ev.run)).sem.single ≤ 1 ∧
      ((Sys.init N).exec ((order.take k).map Ev.run)).procs.countP
        (fun p => decide (p.pc.role = .collector)) ≤ 1 := by
  have hnd : order.Nodup := hperm.symm.nodup (List.nodup_range N)
  have hlen : order.length = N := by rw [hperm.length_eq, List.length_range]
  have hst : ∀ i ∈ order, ∃ p, (Sys.init N).procs[i]? = some p ∧ p.pc = .start := by
    intro i hi
    have hi2 : i < N := List.mem_range.mp (hperm.mem_iff.mp hi)
    exact ⟨⟨.start, Adj.zero⟩, by simp [Sys.init, hi2], rfl⟩
  obtain ⟨r1, r2, r3, r4⟩ := Elect.run_all order (Sys.init N) (Elect.init_elect N) hnd hst
  have hne : order ≠ [] := by
    intro e; rw [e] at hlen; simp at hlen; omega
  have hS := r4 hne
  have hcol := r1.inv.collectors
  have hsum := tot_length (fun pc => if pc = .start then 1 else 0)
    (fun pc => if pc.role = .collector then 1 else 0)
    (fun pc => if pc.role = .sender then 1 else 0)
    ((Sys.init N).exec (order.map Ev.run)).procs
    (by intro p hp; rcases r1.pcs p hp with e | e | e <;> rw [e] <;> rfl)
  rw [tot_start_init] at r3
  have hN2 : (Sys.init N).procs.length = N := by simp [Sys.init]
  rw [countP_eq_tot (fun pc => pc.role = .collector)] at hcol
  refine ⟨?_, ?_, ?_⟩
  · rw [countP_eq_tot (fun pc => pc.role = .collector)]; omega
  · rw [countP_eq_tot (fun pc => pc.role = .sender)]; omega
  · intro k
    have hi := Inv.reach N ((order.take k).map Ev.run)
    have := hi.collectors
    have := hi.single_le
    omega

/-- Witness for C1: three processes electing in the order 2, 0, 1. -/
theorem election_exactly_one_collector_witness :
    ((Sys.init 3).exec ([2, 0, 1].map Ev.run)).procs.countP
        (fun p => decide (p.pc.role = .collector)) = 1 ∧
    ((Sys.init 3).exec ([2, 0, 1].map Ev.run)).procs.countP
        (fun p => decide (p.pc.role = .sender)) = 3 - 1 ∧
    ∀ k, ((Sys.init 3).exec (([2, 0, 1].take k).map Ev.run)).sem.single ≤ 1 ∧
      ((Sys.init 3).exec (([2, 0, 1].take k).map Ev.run)).procs.countP
        (fun p => decide (p.pc.role = .collector)) ≤ 1 :=
  election_exactly_one_collector 3 (by decide) [2, 0, 1] (by decide)

/-! # The dispatch of `echoloop_start` -/

theorem election_semop (sem : Counters) (adj : Adj) :
    semop (echoloop_start_sops sopbuf_new).buf sem adj =
      if sem.tr_active ≠ 0 then .sleep
      else if sem.single ≠ 0 then .error .EAGAIN
      else .done { sem with single := 1 } { adj with single := adj.single - 1 } := by
  have h2 : ¬ ((SEMVMX : Int) < 1) := by decide
  have h3 : ¬ ((SEMVMX : Int) < 0) := by decide
  by_cases hA : sem.tr_active = 0 <;> by_cases hS : sem.single = 0 <;>
    simp [echoloop_start_sops, sopbuf_add, sopbuf_new, semop, Vec5.get, Vec5.set, hA, hS, h2, h3]

/-- C2. The election batch of `echoloop_start` decides the role: the Collector
branch is taken exactly when the batch commits, which leaves `SEM_SINGLE = 1`
and the other four counters as they were; the Sender branch is taken exactly
when the batch fails with `EAGAIN`, which happens exactly when no fault occurs,
`SEM_TR_ACTIVE` is 0 and `SEM_SINGLE` is already nonzero, and then no counter
and no undo entry changes; every other failure makes `echoloop_start` return
-1 without running either role. -/
theorem echoloop_start_role (fault : Option Fault) (sem : Counters) (adj : Adj) :
    ((echoloop_start fault sopbuf_new sem adj).1 = .run_main ↔
      ∃ sem1 adj1,
        (sopbuf_semop fault (echoloop_start_sops sopbuf_new) sem adj).1 = .done sem1 adj1) ∧
    ((echoloop_start fault sopbuf_new sem adj).1 = .run_main →
      echoloop_start fault sopbuf_new sem adj
        = (.run_main, ⟨1, sem.main, sem.sender, sem.tr_active, sem.tr_done⟩,
            { adj with single := adj.single - 1 })) ∧
    ((echoloop_start fault sopbuf_new sem adj).1 = .run_sender ↔
      (sopbuf_semop fault (echoloop_start_sops sopbuf_new) sem adj).1 = .error .EAGAIN) ∧
    ((sopbuf_semop fault (echoloop_start_sops sopbuf_new) sem adj).1 = .error .EAGAIN ↔
      fault = none ∧ sem.tr_active = 0 ∧ sem.single ≠ 0) ∧
    ((echoloop_start fault sopbuf_new sem adj).1 = .run_sender →
      echoloop_start fault sopbuf_new sem adj = (.run_sender, sem, adj)) ∧
    (∀ e, (sopbuf_semop fault (echoloop_start_sops sopbuf_new) sem adj).1 = .error e →
      e ≠ .EAGAIN → echoloop_start fault sopbuf_new sem adj = (.ret_fail, sem, adj)) := by
  cases fault with
  | some f =>
    have hf : f.errno ≠ .EAGAIN := by cases f <;> simp [Fault.errno]
    simp [echoloop_start, sopbuf_semop, hf]
  | none =>
    simp only [echoloop_start, sopbuf_semop, election_semop]
    by_cases hA : sem.tr_active = 0 <;> by_cases hS : sem.single = 0 <;> simp [hA, hS]

/-! # Mirror symmetry of the Enter stage -/

/-- Counterexample for C9 as stated: the first Enter batch of the sender is not
the first Enter batch of the main side with the readiness counters exchanged. -/
theorem enter_a_not_mirrored :
    ¬ (echoloop_sender_enter_section_a sopbuf_new
          = (echoloop_main_enter_section_a sopbuf_new).mirror ∧
       echoloop_sender_enter_section_b sopbuf_new
          = (echoloop_main_enter_section_b sopbuf_new).mirror) := by
  decide

/-- C9, amended. The second Enter batch of `echoloop_sender_enter_section` is
the second Enter batch of `echoloop_main_enter_section` with `SEM_MAIN` and
`SEM_SENDER` exchanged; the first Enter batch of the main side is the
blocking -1/+1 barrier on `SEM_SENDER` followed by the undo-tagged
`SEM_TR_ACTIVE += 1`, and the first Enter batch of the sender is the mirror of
that batch preceded by a `IPC_NOWAIT` -1/+1 probe of `SEM_SINGLE`. -/
theorem enter_stage_mirrored :
    echoloop_sender_enter_section_b sopbuf_new
      = (echoloop_main_enter_section_b sopbuf_new).mirror ∧
    (echoloop_main_enter_section_a sopbuf_new).buf
      = [⟨.SEM_SENDER, -1, .NONE⟩, ⟨.SEM_SENDER, 1, .NONE⟩, ⟨.SEM_TR_ACTIVE, 1, .SEM_UNDO⟩] ∧
    (echoloop_sender_enter_section_a sopbuf_new).buf
      = [⟨.SEM_SINGLE, -1, .IPC_NOWAIT⟩, ⟨.SEM_SINGLE, 1, .NONE⟩]
        ++ (echoloop_main_enter_section_a sopbuf_new).mirror.buf := by
  decide

/-! # Transfer-Active counts the processes inside the handshake -/

/-- C5. In every state reachable from the zero-initialised counter set by
atomic batches of any number of processes (terminations included),
`SEM_TR_ACTIVE` is at most 2 and equals the number of processes that have
committed their first Enter batch and not yet their third Quit batch; at most
one of those processes is a Sender. -/
theorem tr_active_counts_section (n : Nat) (evs : List Ev) :
    ((Sys.init n).exec evs).sem.tr_active ≤ 2 ∧
    ((Sys.init n).exec evs).sem.tr_active
      = ((Sys.init n).exec evs).procs.countP (fun p => decide (p.pc.in_section = true)) ∧
    ((Sys.init n).exec evs).procs.countP
      (fun p => decide (p.pc.in_section = true ∧ p.pc.role = .sender)) ≤ 1 := by
  have h := Inv.reach n evs
  obtain ⟨_, _, b4, _⟩ := h.bounds
  refine ⟨b4, ?_, ?_⟩
  · rw [countP_eq_tot (fun pc => pc.in_section = true), h.active_eq]
    apply tot_congr
    intro p _
    cases p.pc <;> simp [Pc.in_section, hold]
  · rw [countP_eq_tot (fun pc => pc.in_section = true ∧ pc.role = .sender)]
    have h1 := tot_le_add (fun pc => if pc.in_section = true ∧ pc.role = .sender then 1 else 0)
      active (fun _ => 0)
      (by intro pc; cases pc <;> simp [Pc.in_section, Pc.role, active])
      ((Sys.init n).exec evs).procs
    have := h.senders_le
    have := tot_zero ((Sys.init n).exec evs).procs
    omega

/-! # One transfer returns to the baseline -/

set_option maxRecDepth 100000 in
theorem Transfer.step_at_collector : ∀ i : Fin 7, ∀ j : Fin 7,
    (Transfer.after i j).step .collector = none ∨
      ∃ i1 : Fin 7, ∃ j1 : Fin 7,
        (Transfer.after i j).step .collector = some (Transfer.after i1 j1) := by
  decide

set_option maxRecDepth 100000 in
theorem Transfer.step_at_sender : ∀ i : Fin 7, ∀ j : Fin 7,
    (Transfer.after i j).step .sender = none ∨
      ∃ i1 : Fin 7, ∃ j1 : Fin 7,
        (Transfer.after i j).step .sender = some (Transfer.after i1 j1) := by
  decide

theorem Transfer.step_at (i j : Fin 7) (x : Side) :
    (Transfer.after i j).step x = none ∨
      ∃ i1 : Fin 7, ∃ j1 : Fin 7, (Transfer.after i j).step x = some (Transfer.after i1 j1) := by
  cases x
  · exact Transfer.step_at_collector i j
  · exact Transfer.step_at_sender i j

theorem Transfer.run_at (sched : List Side) : ∀ (i j : Fin 7) (t : Transfer),
    (Transfer.after i j).run sched = some t → ∃ i1 : Fin 7, ∃ j1 : Fin 7, t = Transfer.after i1 j1 := by
  induction sched with
  | nil =>
    intro i j t h
    simp only [Transfer.run, Option.some.injEq] at h
    exact ⟨i, j, h.symm⟩
  | cons x rest ih =>
    intro i j t h
    rcases Transfer.step_at i j x with h1 | ⟨i1, j1, h1⟩
    · simp [Transfer.run, h1] at h
    · simp only [Transfer.run, h1] at h
      exact ih i1 j1 t h

set_option maxRecDepth 100000 in
theorem Transfer.at_finished : ∀ i : Fin 7, ∀ j : Fin 7,
    (Transfer.after i j).main_todo = [] → (Transfer.after i j).sender_todo = [] →
      (Transfer.after i j).sem = ⟨1, 0, 0, 0, 0⟩ ∧
      (Transfer.after i j).main_adj = ⟨-1, 0, 0, 0, 0⟩ ∧
      (Transfer.after i j).sender_adj = ⟨0, 0, 0, 0, 0⟩ := by
  decide

/-- C6. From the between-transfers baseline, every interleaving of the six
batches of `echoloop_main_receive` with the six batches of one
`echoloop_sender` in which both parties commit their third Quit batch ends
with the counters at the baseline again (`SEM_SINGLE = 1`, the rest 0), and
with no undo adjustment pending on `SEM_MAIN`, `SEM_SENDER`, `SEM_TR_ACTIVE`
and `SEM_TR_DONE` for either party. -/
theorem transfer_restores_baseline (sched : List Side) (t : Transfer)
    (hrun : Transfer.baseline.run sched = some t)
    (hmain : t.main_todo = []) (hsender : t.sender_todo = []) :
    t.sem = ⟨1, 0, 0, 0, 0⟩ ∧
    (t.main_adj.main = 0 ∧ t.main_adj.sender = 0 ∧ t.main_adj.tr_active = 0
      ∧ t.main_adj.tr_done = 0) ∧
    (t.sender_adj.main = 0 ∧ t.sender_adj.sender = 0 ∧ t.sender_adj.tr_active = 0
      ∧ t.sender_adj.tr_done = 0) := by
  have hb : Transfer.baseline = Transfer.after (0 : Fin 7) (0 : Fin 7) := by decide
  rw [hb] at hrun
  obtain ⟨i1, j1, e⟩ := Transfer.run_at sched 0 0 t hrun
  subst e
  obtain ⟨h1, h2, h3⟩ := Transfer.at_finished i1 j1 hmain hsender
  rw [h1, h2, h3]
  simp

/-- Witness for C6: the strictly alternating interleaving completes. -/
theorem transfer_restores_baseline_witness :
    ∃ t, Transfer.baseline.run
        [.collector, .sender, .collector, .sender, .collector, .sender,
         .collector, .sender, .collector, .sender, .collector, .sender] = some t ∧
      t.main_todo = [] ∧ t.sender_todo = [] ∧
      t.sem = ⟨1, 0, 0, 0, 0⟩ ∧
      (t.main_adj.main = 0 ∧ t.main_adj.sender = 0 ∧ t.main_adj.tr_active = 0
        ∧ t.main_adj.tr_done = 0) ∧
      (t.sender_adj.main = 0 ∧ t.sender_adj.sender = 0 ∧ t.sender_adj.tr_active = 0
        ∧ t.sender_adj.tr_done = 0) :=
  ⟨Transfer.after 6 6, by decide, by decide, by decide,
    transfer_restores_baseline
      [.collector, .sender, .collector, .sender, .collector, .sender,
       .collector, .sender, .collector, .sender, .collector, .sender]
      (Transfer.after 6 6) (by decide) (by decide) (by decide)⟩

/-! # Runs without outside termination -/

set_option maxRecDepth 100000 in
theorem pair_step_fin : ∀ x ∈ okPairs, ∀ a ∈ allPcs, ∀ l : Bool,
    (mcode a ≠ 0 → x.1 = mcode a) → (scode a ≠ 0 → x.2 = scode a) →
    (lcode a = 1 → l = true) → (l = true → 1 ≤ x.1) →
    PairStep x.1 x.2 a l := by
  decide

set_option maxRecDepth 100000 in
theorem pair_done_fin : ∀ x ∈ okPairs, ∀ a ∈ allPcs,
    (mcode a ≠ 0 → x.1 = mcode a) → (scode a ≠ 0 → x.2 = scode a) →
    (semOf x.1 x.2).tr_done < (Proc.run (semOf x.1 x.2) ⟨a, adjOf a⟩).1.tr_done →
    (semOf x.1 x.2).tr_active = 2 ∧ (a = .main_quit_a ∨ a = .sender_quit_a) := by
  decide

theorem tot_le_mul (f g : Pc → Nat) (K : Nat) (hp : ∀ pc, f pc ≤ K * g pc) (l : List Proc) :
    tot f l ≤ K * tot g l := by
  induction l with
  | nil => simp [tot]
  | cons a t ih =>
    have := hp a.pc
    simp only [tot, List.map_cons, List.sum_cons] at ih ⊢
    rw [Nat.mul_add]
    omega

/-- When at most one process has `g ≠ 0` and `f` vanishes wherever `g` does,
the sum of `f` is the value of `f` at that process. -/
theorem tot_unique (f g : Pc → Nat) (K : Nat) (hp : ∀ pc, f pc ≤ K * g pc)
    (hg0 : g .start = 0) (l : List Proc) (i : Nat) (p : Proc) (h : l[i]? = some p)
    (hle : tot g l ≤ 1) (hpos : 1 ≤ g p.pc) : tot f l = f p.pc := by
  have h1 : tot g (l.set i ⟨.start, Adj.zero⟩) + g p.pc = tot g l + g .start :=
    tot_set g l i p ⟨.start, Adj.zero⟩ h
  have h2 : tot f (l.set i ⟨.start, Adj.zero⟩) + f p.pc = tot f l + f .start :=
    tot_set f l i p ⟨.start, Adj.zero⟩ h
  have h3 := tot_le_mul f g K hp (l.set i ⟨.start, Adj.zero⟩)
  have h4 := hp .start
  simp only [hg0] at h1 h4
  have h5 : tot g (l.set i ⟨.start, Adj.zero⟩) = 0 := by omega
  rw [h5] at h3
  simp only [Nat.mul_zero] at h3 h4
  omega

theorem PInv.run_preserves {s : Sys} (h : PInv s) (i : Nat) : PInv (s.step (.run i)) := by
  simp only [Sys.step]
  cases hp : s.procs[i]? with
  | none => simp only [Sys.update, hp]; exact h
  | some p =>
    have hinv := h.inv.step_preserves (.run i)
    simp only [Sys.step] at hinv
    rw [Sys.update_some s i _ p hp] at hinv ⊢
    have hpe := Proc.eq_of_adj (h.inv.adj_ok p (List.getElem?_mem hp))
    have hm : mcode p.pc ≠ 0 → tot mcode s.procs = mcode p.pc := by
      intro hne
      apply tot_unique mcode (fun pc => (hold pc).single) 6
        (by intro pc; cases pc <;> simp [mcode, hold]) rfl s.procs i p hp
      · rw [← h.inv.single_eq]; exact h.inv.single_le
      · revert hne; cases p.pc <;> simp [mcode, hold]
    have hs : scode p.pc ≠ 0 → tot scode s.procs = scode p.pc := by
      intro hne
      apply tot_unique scode active 5
        (by intro pc; cases pc <;> simp [scode, active]) rfl s.procs i p hp h.inv.senders_le
      revert hne; cases p.pc <;> simp [scode, active]
    have hl : lcode p.pc = 1 → decide (1 ≤ tot lcode s.procs) = true := by
      intro e
      have := tot_ge lcode s.procs i p hp
      simp only [decide_eq_true_eq]
      omega
    have hl2 : decide (1 ≤ tot lcode s.procs) = true → 1 ≤ tot mcode s.procs := by
      intro e
      exact h.late (by simpa using e)
    have key := pair_step_fin _ h.ok p.pc (mem_allPcs _) (decide (1 ≤ tot lcode s.procs))
      hm hs hl hl2
    unfold PairStep at key
    simp only at key
    rw [← h.sem_eq, ← hpe] at key
    obtain ⟨k1, k2, k3⟩ := key
    have t1 := tot_set mcode s.procs i p (Proc.run s.sem p).2 hp
    have t2 := tot_set scode s.procs i p (Proc.run s.sem p).2 hp
    have t3 := tot_set lcode s.procs i p (Proc.run s.sem p).2 hp
    have g1 := tot_ge mcode s.procs i p hp
    have g2 := tot_ge scode s.procs i p hp
    have e1 : tot mcode (s.procs.set i (Proc.run s.sem p).2)
        = tot mcode s.procs - mcode p.pc + mcode (Proc.run s.sem p).2.pc := by omega
    have e2 : tot scode (s.procs.set i (Proc.run s.sem p).2)
        = tot scode s.procs - scode p.pc + scode (Proc.run s.sem p).2.pc := by omega
    refine ⟨hinv, ?_, ?_, ?_⟩
    · simp only [e1, e2]; exact k2
    · simp only [e1, e2]; exact k1
    · simp only [e1]
      intro hlate
      apply k3
      by_cases hc : 1 ≤ lcode (Proc.run s.sem p).2.pc
      · exact Or.inr hc
      · left
        simp only [decide_eq_true_eq]
        omega

theorem PInv.init_pair (n : Nat) : PInv (Sys.init n) := by
  have h1 : tot mcode (Sys.init n).procs = 0 := tot_replicate_start mcode n _ rfl
  have h2 : tot scode (Sys.init n).procs = 0 := tot_replicate_start scode n _ rfl
  have h3 : tot lcode (Sys.init n).procs = 0 := tot_replicate_start lcode n _ rfl
  refine ⟨Inv.init_holds n, ?_, ?_, ?_⟩
  · rw [h1, h2]; rfl
  · rw [h1, h2]; decide
  · rw [h3]; omega

theorem PInv.sched_preserves {s : Sys} (h : PInv s) (sched : List Nat) :
    PInv (s.exec (sched.map Ev.run)) := by
  induction sched generalizing s with
  | nil => exact h
  | cons i t ih => exact ih (h.run_preserves i)

set_option maxRecDepth 100000 in
theorem pair_move_run_fin : ∀ x ∈ okPairsK, ∀ a ∈ allPcs,
    (mcode a ≠ 0 → x.1 = mcode a) → (scode a ≠ 0 → x.2 = scode a) →
    PairMove Proc.run x.1 x.2 a := by
  decide

set_option maxRecDepth 100000 in
theorem pair_move_kill_fin : ∀ x ∈ okPairsK, ∀ a ∈ allPcs,
    (mcode a ≠ 0 → x.1 = mcode a) → (scode a ≠ 0 → x.2 = scode a) →
    PairMove Proc.kill x.1 x.2 a := by
  decide

set_option maxRecDepth 100000 in
theorem pair_done_any_fin : ∀ x ∈ okPairsK, ∀ a ∈ allPcs,
    (mcode a ≠ 0 → x.1 = mcode a) → (scode a ≠ 0 → x.2 = scode a) →
    (semOf x.1 x.2).tr_done < (Proc.run (semOf x.1 x.2) ⟨a, adjOf a⟩).1.tr_done →
    (a = .main_quit_a ∨ a = .sender_quit_a) ∧
    ((semOf x.1 x.2).tr_active = 2 ∨
      ((semOf x.1 x.2).tr_active = 1 ∧ (a = .main_quit_a → x.2 = 0) ∧
        (a = .sender_quit_a → x.1 = 0))) := by
  decide

theorem Inv.main_code {s : Sys} (h : Inv s) {i : Nat} {p : Proc} (hp : s.procs[i]? = some p) :
    mcode p.pc ≠ 0 → tot mcode s.procs = mcode p.pc := by
  intro hne
  apply tot_unique mcode (fun pc => (hold pc).single) 6
    (by intro pc; cases pc <;> simp [mcode, hold]) rfl s.procs i p hp
  · rw [← h.single_eq]; exact h.single_le
  · revert hne; cases p.pc <;> simp [mcode, hold]

theorem Inv.sender_code {s : Sys} (h : Inv s) {i : Nat} {p : Proc}
    (hp : s.procs[i]? = some p) :
    scode p.pc ≠ 0 → tot scode s.procs = scode p.pc := by
  intro hne
  apply tot_unique scode active 5
    (by intro pc; cases pc <;> simp [scode, active]) rfl s.procs i p hp h.senders_le
  revert hne; cases p.pc <;> simp [scode, active]

theorem KInv.update_pair {s : Sys} (h : KInv s) (i : Nat) (f : Counters → Proc → Counters × Proc)
    (hinv : Inv (s.update i f))
    (hf : ∀ x ∈ okPairsK, ∀ a ∈ allPcs, (mcode a ≠ 0 → x.1 = mcode a) →
      (scode a ≠ 0 → x.2 = scode a) → PairMove f x.1 x.2 a) :
    KInv (s.update i f) := by
  cases hp : s.procs[i]? with
  | none => simp only [Sys.update, hp]; exact h
  | some p =>
    rw [Sys.update_some s i _ p hp] at hinv ⊢
    have hpe := Proc.eq_of_adj (h.inv.adj_ok p (List.getElem?_mem hp))
    have key := hf _ h.ok p.pc (mem_allPcs _) (h.inv.main_code hp) (h.inv.sender_code hp)
    unfold PairMove at key
    simp only at key
    rw [← h.sem_eq, ← hpe] at key
    obtain ⟨k1, k2⟩ := key
    have t1 := tot_set mcode s.procs i p (f s.sem p).2 hp
    have t2 := tot_set scode s.procs i p (f s.sem p).2 hp
    have g1 := tot_ge mcode s.procs i p hp
    have g2 := tot_ge scode s.procs i p hp
    have e1 : tot mcode (s.procs.set i (f s.sem p).2)
        = tot mcode s.procs - mcode p.pc + mcode (f s.sem p).2.pc := by omega
    have e2 : tot scode (s.procs.set i (f s.sem p).2)
        = tot scode s.procs - scode p.pc + scode (f s.sem p).2.pc := by omega
    refine ⟨hinv, ?_, ?_⟩
    · simp only [e1, e2]; exact k2
    · simp only [e1, e2]; exact k1

theorem KInv.event {s : Sys} (h : KInv s) (e : Ev) : KInv (s.step e) := by
  have hinv := h.inv.step_preserves e
  cases e with
  | run i => exact h.update_pair i Proc.run hinv pair_move_run_fin
  | kill i => exact h.update_pair i Proc.kill hinv pair_move_kill_fin

theorem KInv.reach_pair (n : Nat) (evs : List Ev) : KInv ((Sys.init n).exec evs) := by
  have h0 : KInv (Sys.init n) := by
    have h1 : tot mcode (Sys.init n).procs = 0 := tot_replicate_start mcode n _ rfl
    have h2 : tot scode (Sys.init n).procs = 0 := tot_replicate_start scode n _ rfl
    refine ⟨Inv.init_holds n, ?_, ?_⟩
    · rw [h1, h2]; rfl
    · rw [h1, h2]; decide
  generalize Sys.init n = s at h0
  induction evs generalizing s with
  | nil => exact h0
  | cons e t ih => exact ih (s.step e) (h0.event e)

theorem tot_eq_zero (f : Pc → Nat) (l : List Proc) (h : tot f l = 0) :
    ∀ q ∈ l, f q.pc = 0 := by
  induction l with
  | nil => intro q hq; simp at hq
  | cons a t ih =>
    simp only [tot, List.map_cons, List.sum_cons] at h ih
    intro q hq
    rcases List.mem_cons.mp hq with e | e
    · rw [e]; omega
    · exact ih (by omega) q e

theorem runs_of_no_kill (evs : List Ev) (h : ∀ e ∈ evs, ∃ i, e = Ev.run i) :
    ∃ sched : List Nat, evs = sched.map Ev.run := by
  induction evs with
  | nil => exact ⟨[], rfl⟩
  | cons e t ih =>
    obtain ⟨i, hi⟩ := h e (List.mem_cons_self e t)
    obtain ⟨sched, hs⟩ := ih (fun e he => h e (List.mem_cons_of_mem _ he))
    exact ⟨i :: sched, by rw [hi, hs]; rfl⟩

/-- C8, amended. In every reachable execution (terminations included), a
scheduling that increases `SEM_TR_DONE` is the first Quit batch of
`echoloop_main_quit_section` or `echoloop_sender_quit_section`, and it is
applied in a state where `SEM_TR_ACTIVE = 2`, unless the peer is gone, in
which case `SEM_TR_ACTIVE = 1`; in executions made of schedulings only (no
process is terminated from outside) it is always applied with
`SEM_TR_ACTIVE = 2`. -/
theorem tr_done_advances_with_both (n : Nat) (evs : List Ev) (j : Nat)
    (hinc : ((Sys.init n).exec evs).sem.tr_done
      < (((Sys.init n).exec evs).step (.run j)).sem.tr_done) :
    ∃ p, ((Sys.init n).exec evs).procs[j]? = some p ∧
      (p.pc = .main_quit_a ∨ p.pc = .sender_quit_a) ∧
      (((Sys.init n).exec evs).sem.tr_active = 2 ∨
        (((Sys.init n).exec evs).sem.tr_active = 1 ∧
          ((Sys.init n).exec evs).peer_gone p.pc)) ∧
      ((∀ e ∈ evs, ∃ i, e = Ev.run i) → ((Sys.init n).exec evs).sem.tr_active = 2) := by
  have hk := KInv.reach_pair n evs
  have hpair : (∀ e ∈ evs, ∃ i, e = Ev.run i) → PInv ((Sys.init n).exec evs) := by
    intro hr
    obtain ⟨sched, hs⟩ := runs_of_no_kill evs hr
    rw [hs]
    exact (PInv.init_pair n).sched_preserves sched
  generalize (Sys.init n).exec evs = s at hk hinc hpair
  simp only [Sys.step] at hinc
  cases hp : s.procs[j]? with
  | none => simp [Sys.update, hp] at hinc
  | some p =>
    rw [Sys.update_some s j _ p hp] at hinc
    simp only at hinc
    have hpe := Proc.eq_of_adj (hk.inv.adj_ok p (List.getElem?_mem hp))
    have hm := hk.inv.main_code hp
    have hs := hk.inv.sender_code hp
    have key := pair_done_any_fin _ hk.ok p.pc (mem_allPcs _) hm hs
    simp only at key
    rw [← hk.sem_eq, ← hpe] at key
    obtain ⟨k1, k2⟩ := key hinc
    refine ⟨p, rfl, k1, ?_, ?_⟩
    · rcases k2 with k2 | ⟨k2, k3, k4⟩
      · exact Or.inl k2
      · refine Or.inr ⟨k2, ?_⟩
        unfold Sys.peer_gone
        rcases k1 with e | e
        · have z := tot_eq_zero scode s.procs (k3 e)
          rw [e]
          intro q hq
          have := z q hq
          revert this
          cases q.pc <;> simp [Pc.role, scode]
        · have z := tot_eq_zero mcode s.procs (k4 e)
          rw [e]
          intro q hq
          have := z q hq
          revert this
          cases q.pc <;> simp [Pc.role, mcode]
    · intro hr
      have h := hpair hr
      have key2 := pair_done_fin _ h.ok p.pc (mem_allPcs _) hm hs
      simp only at key2
      rw [← h.sem_eq, ← hpe] at key2
      exact (key2 hinc).1

/-- Witness for C8: Collector and Sender enter, then the Collector's first Quit
batch is applied. -/
theorem tr_done_advances_with_both_witness :
    ∃ p, ((Sys.init 2).exec ([0, 0, 1, 1, 0, 1, 0, 1].map Ev.run)).procs[0]? = some p ∧
      (p.pc = .main_quit_a ∨ p.pc = .sender_quit_a) ∧
      (((Sys.init 2).exec ([0, 0, 1, 1, 0, 1, 0, 1].map Ev.run)).sem.tr_active = 2 ∨
        (((Sys.init 2).exec ([0, 0, 1, 1, 0, 1, 0, 1].map Ev.run)).sem.tr_active = 1 ∧
          ((Sys.init 2).exec ([0, 0, 1, 1, 0, 1, 0, 1].map Ev.run)).peer_gone p.pc)) ∧
      ((∀ e ∈ [0, 0, 1, 1, 0, 1, 0, 1].map Ev.run, ∃ i, e = Ev.run i) →
        ((Sys.init 2).exec ([0, 0, 1, 1, 0, 1, 0, 1].map Ev.run)).sem.tr_active = 2) :=
  tr_done_advances_with_both 2 ([0, 0, 1, 1, 0, 1, 0, 1].map Ev.run) 0 (by decide)

/-- Counterexample for C8 as stated: the Collector is terminated after both
parties passed the second Enter batch; the Sender's first Quit batch then
raises `SEM_TR_DONE` in a state where `SEM_TR_ACTIVE = 1`. -/
theorem tr_done_advances_after_peer_death :
    ((Sys.init 2).exec
      [.run 0, .run 0, .run 1, .run 1, .run 0, .run 1, .run 0, .run 1, .kill 0]).sem.tr_active = 1 ∧
    ((Sys.init 2).exec
      [.run 0, .run 0, .run 1, .run 1, .run 0, .run 1, .run 0, .run 1, .kill 0]).procs[1]?
        = some ⟨.sender_quit_a, adjOf .sender_quit_a⟩ ∧
    (((Sys.init 2).exec
      [.run 0, .run 0, .run 1, .run 1, .run 0, .run 1, .run 0, .run 1, .kill 0]).step
        (.run 1)).sem.tr_done
      = ((Sys.init 2).exec
      [.run 0, .run 0, .run 1, .run 1, .run 0, .run 1, .run 0, .run 1, .kill 0]).sem.tr_done + 1 := by
  decide

/-! # Peer death -/

/-- C10, the code at the failing input. `strlist_append` on the list made by
`strlist_new` returns 0 and leaves the new node's `next` at whatever the
block handed out by `malloc` held; with a non-null leftover the walk from
`list->first` does not end at `NULL`. -/
theorem strlist_append_next_unset (str : List Nat) (str_s : Nat) (junk : strelem) :
    (strlist_append strlist_new [] str str_s (some junk)).1 = 0 ∧
    Heap.read (strlist_append strlist_new [] str str_s (some junk)).2.2
        (strlist_append strlist_new [] str str_s (some junk)).2.1.last
      = some ⟨str, str_s, junk.next⟩ ∧
    Heap.read (strlist_append strlist_new [] [65] 1 (some ⟨[], 0, 57005⟩)).2.2
        (strlist_append strlist_new [] [65] 1 (some ⟨[], 0, 57005⟩)).2.1.last
      = some ⟨[65], 1, 57005⟩ ∧
    strlist_walk 8 (strlist_append strlist_new [] [65] 1 (some ⟨[], 0, 57005⟩)).2.2
        (strlist_append strlist_new [] [65] 1 (some ⟨[], 0, 57005⟩)).2.1.first = none := by
  refine ⟨rfl, ?_, by decide, by decide⟩
  simp [strlist_append, strlist_new, Heap.read, Heap.write, Heap.fresh]

/-- C4, the code at the failing input. The buffer holds the single message
`AB`; the output takes one byte per `write`. `strlist_print` returns 0 having
written `AA\n`, not `AB\n`: after the short first write the loop writes from
the start of the string again. With writes that take everything the output is
`AB\n`. -/
theorem strlist_print_repeats_after_short_write :
    strlist_print (fun _ => 1) 4
        (strlist_append strlist_new [] [65, 66] 2 (some ⟨[], 0, 0⟩)).2.1
        (strlist_append strlist_new [] [65, 66] 2 (some ⟨[], 0, 0⟩)).2.2
      = some (0, [65, 65, 10]) ∧
    strlist_print (fun _ => 2) 4
        (strlist_append strlist_new [] [65, 66] 2 (some ⟨[], 0, 0⟩)).2.1
        (strlist_append strlist_new [] [65, 66] 2 (some ⟨[], 0, 0⟩)).2.2
      = some (0, [65, 66, 10]) := by
  decide

/-! # Byte channel -/

end Echoloop
